import Mathlib

/-!
# Verification of celery-pubsub (`src/celery_pubsub/pubsub.py`)

A shallow embedding of the pub/sub manager in `celery_pubsub/pubsub.py`.
Topics and patterns are modelled as `List Char`.  The compiled regular
expression produced by `PubSubManager._topic_to_re` is modelled by a small
regex AST (`RAtom`) together with a parser (`parseBody`, `parseRe`) covering
exactly the subset of Python regex syntax that the translation
`topic.replace(".", "\\.").replace("*", "[^.]+").replace("#", ".+")`
can generate, and a matching function `reMatch` reproducing CPython
`re.match` semantics for that subset, including the two CPython quirks
relevant here: `$` also matches just before a single trailing newline, and
`.` does not match a newline while a negated class such as `[^.]` does.
-/

namespace CeleryPubsub

/-- A single-character regex class occurring in a generated expression:
a literal character, the metacharacter `.` (any character except newline,
CPython semantics without DOTALL), or the class `[^.]` (any character
except a literal dot, newlines included). -/
inductive RClass where
  | lit (c : Char)
  | dot
  | nonDot
deriving DecidableEq, Repr

/-- A regex atom of a generated expression: a class matched exactly once,
or a class under a `+` quantifier (one or more repetitions). -/
inductive RAtom where
  | once (cl : RClass)
  | plus (cl : RClass)
deriving DecidableEq, Repr

/-- A compiled pattern (`re.Pattern`): the body of `^ ... $`,
as a sequence of atoms.  The anchors are implicit in `reMatch`. -/
abbrev Regex := List RAtom

/-- Whether a character is accepted by a single-character class,
with CPython semantics: `.` refuses newline, `[^.]` refuses only `.`. -/
def classMatch : RClass → Char → Bool
  | .lit c, x => x == c
  | .dot, x => x != '\n'
  | .nonDot, x => x != '.'

/-- CPython `re.match` on a compiled `^ body $` expression.  The empty
atom list succeeds at the end of the string, or just before a single
trailing newline (CPython `$` semantics outside MULTILINE mode).
A `+` atom consumes one character and then either moves on or repeats. -/
def reMatch : Regex → List Char → Bool
  | [], t => t.isEmpty || t == ['\n']
  | _ :: _, [] => false
  | RAtom.once cl :: rest, c :: t2 => classMatch cl c && reMatch rest t2
  | RAtom.plus cl :: rest, c :: t2 =>
      classMatch cl c && (reMatch rest t2 || reMatch (RAtom.plus cl :: rest) t2)

/-- Python `str.replace(needle, repl)` for a single-character needle:
every occurrence of `needle` is replaced by `repl`. -/
def pyReplace1 (needle : Char) (repl : List Char) : List Char → List Char
  | [] => []
  | c :: rest => (if c = needle then repl else [c]) ++ pyReplace1 needle repl rest

/-- The body of the regex string built by `PubSubManager._topic_to_re`:
`topic.replace(".", "\\.").replace("*", "[^.]+").replace("#", ".+")`. -/
def topicToReBody (topic : List Char) : List Char :=
  pyReplace1 '#' ['.', '+']
    (pyReplace1 '*' ['[', '^', '.', ']', '+']
      (pyReplace1 '.' ['\\', '.'] topic))

/-- The full regex string: `"^{}$".format(re_topic)`. -/
def topicToReStr (topic : List Char) : List Char :=
  '^' :: topicToReBody topic ++ ['$']

/-- Characters of the generated regex body that our parser does not
support as bare literals because CPython gives them (or may give them)
a structural meaning there; a body containing one of them fails to
parse, modelling (conservatively) a `re.error` from `re.compile`.
Concretely: for the inputs used below, parse failure coincides with a
genuine CPython `re.error` (for example `(`, an unterminated group). -/
def reMeta : List Char :=
  ['\\', '[', ']', '(', ')', '{', '}', '+', '?', '*', '^', '$', '|']

/-- Parser for the regex-body subset reachable from `_topic_to_re`:
`\.` (escaped dot), `[^.]+` (as generated for `*`), `.` optionally
followed by `+`, and bare literal characters optionally followed by `+`.
Anything else is rejected (modelled compile failure). -/
def parseBody : List Char → Option Regex
  | [] => some []
  | c :: rest =>
    if c = '\\' then
      match rest with
      | '.' :: rest2 => (parseBody rest2).map (RAtom.once (RClass.lit '.') :: ·)
      | _ => none
    else if c = '[' then
      match rest with
      | '^' :: '.' :: ']' :: '+' :: rest2 =>
          (parseBody rest2).map (RAtom.plus RClass.nonDot :: ·)
      | _ => none
    else if c ∈ reMeta then none
    else
      match rest with
      | '+' :: rest2 =>
          (parseBody rest2).map
            (RAtom.plus (if c = '.' then RClass.dot else RClass.lit c) :: ·)
      | [] => some [RAtom.once (if c = '.' then RClass.dot else RClass.lit c)]
      | d :: rest2 =>
          (parseBody (d :: rest2)).map
            (RAtom.once (if c = '.' then RClass.dot else RClass.lit c) :: ·)

/-- Parse a full generated expression `^ body $`. -/
def parseRe (s : List Char) : Option Regex :=
  match s with
  | '^' :: rest => if rest.getLast? = some '$' then parseBody rest.dropLast else none
  | _ => none

/-- `PubSubManager._topic_to_re`: translate a pattern string and compile
it; `none` models `re.compile` raising `re.error`. -/
def topic_to_re (topic : List Char) : Option Regex :=
  parseRe (topicToReStr topic)

/-- Matcher semantics written from the specification text: `.` matches
only a literal separator, `*` exactly one non-empty separator-free
segment, `#` one or more characters of any kind possibly spanning
separators, every other character itself, anchored to the whole topic. -/
def specMatch : List Char → List Char → Bool
  | [], t => t.isEmpty
  | _ :: _, [] => false
  | c :: p, x :: t =>
    if c = '*' then x != '.' && (specMatch p t || specMatch (c :: p) t)
    else if c = '#' then specMatch p t || specMatch (c :: p) t
    else x == c && specMatch p t

/-- The atoms `_topic_to_re` produces for one pattern character:
`.` → escaped dot, `*` → `[^.]+`, `#` → `.+`, anything else → itself. -/
def atomsOf : List Char → Regex
  | [] => []
  | c :: p =>
    (if c = '*' then RAtom.plus RClass.nonDot
     else if c = '#' then RAtom.plus RClass.dot
     else RAtom.once (RClass.lit c)) :: atomsOf p

/-- The per-character replacement performed by the chain of
`str.replace` calls in `_topic_to_re`. -/
def replChar (c : Char) : List Char :=
  if c = '.' then ['\\', '.']
  else if c = '*' then ['[', '^', '.', ']', '+']
  else if c = '#' then ['.', '+']
  else [c]

/-- Concatenated per-character replacements. -/
def flatRepl : List Char → List Char
  | [] => []
  | c :: p => replChar c ++ flatRepl p

/-- Patterns for which the generated expression stays inside the
supported regex subset: every character is a wildcard (`.`, `*`, `#`)
or a literal that is neither a regex metacharacter nor a newline. -/
def safePat (p : List Char) : Prop :=
  ∀ c ∈ p, (c = '.' ∨ c = '*' ∨ c = '#') ∨ (c ∉ reMeta ∧ c ≠ '\n')

instance (p : List Char) : Decidable (safePat p) := by
  unfold safePat; infer_instance

theorem safePat_tail {c : Char} {p : List Char} (h : safePat (c :: p)) : safePat p :=
  fun d hd => h d (List.mem_cons_of_mem _ hd)

theorem safePat_head {c : Char} {p : List Char} (h : safePat (c :: p)) :
    (c = '.' ∨ c = '*' ∨ c = '#') ∨ (c ∉ reMeta ∧ c ≠ '\n') :=
  h c (List.mem_cons_self _ _)

theorem pyReplace1_append (n : Char) (r a b : List Char) :
    pyReplace1 n r (a ++ b) = pyReplace1 n r a ++ pyReplace1 n r b := by
  induction a with
  | nil => simp [pyReplace1]
  | cons c a ih => simp [pyReplace1, ih]

/-- The chained `str.replace` calls act independently on each character
of the pattern: `.` becomes `\.`, `*` becomes `[^.]+`, `#` becomes `.+`,
and everything else is kept. -/
theorem topicToReBody_eq_flat (p : List Char) : topicToReBody p = flatRepl p := by
  induction p with
  | nil => rfl
  | cons c p ih =>
    show topicToReBody (c :: p) = replChar c ++ flatRepl p
    unfold topicToReBody at ih ⊢
    rw [show pyReplace1 '.' ['\\', '.'] (c :: p) =
          (if c = '.' then ['\\', '.'] else [c]) ++ pyReplace1 '.' ['\\', '.'] p from rfl,
        pyReplace1_append, pyReplace1_append, ih]
    by_cases h1 : c = '.'
    · subst h1; simp [pyReplace1, replChar]
    · by_cases h2 : c = '*'
      · subst h2; simp [pyReplace1, replChar]
      · by_cases h3 : c = '#'
        · subst h3; simp [pyReplace1, replChar]
        · simp [pyReplace1, replChar, h1, h2, h3]

/-- The replacement of a non-empty pattern starts with a character other
than `+`, so a `+` in the generated body always belongs to the atom that
precedes it. -/
theorem flatRepl_cons_shape (d : Char) (p : List Char) (hd : safePat (d :: p)) :
    ∃ x l, flatRepl (d :: p) = x :: l ∧ x ≠ '+' := by
  show ∃ x l, replChar d ++ flatRepl p = x :: l ∧ x ≠ '+'
  by_cases h1 : d = '.'
  · subst h1; exact ⟨'\\', _, rfl, by decide⟩
  · by_cases h2 : d = '*'
    · subst h2; exact ⟨'[', _, rfl, by decide⟩
    · by_cases h3 : d = '#'
      · subst h3; exact ⟨'.', _, rfl, by decide⟩
      · have hm : d ∉ reMeta ∧ d ≠ '\n' := by
          rcases safePat_head hd with h | h
          · rcases h with h | h | h <;> simp_all
          · exact h
        refine ⟨d, flatRepl p, ?_, ?_⟩
        · simp [replChar, h1, h2, h3]
        · intro h; exact hm.1 (h ▸ (by decide : '+' ∈ reMeta))

/-- Parsing step for a supported literal character followed by anything
that does not start with a quantifier. -/
theorem parseBody_cons_lit (c x : Char) (l : List Char) (hbs : ¬c = '\\') (hbr : ¬c = '[')
    (hm : c ∉ reMeta) (hxp : x ≠ '+') :
    parseBody (c :: x :: l) =
      (parseBody (x :: l)).map
        (RAtom.once (if c = '.' then RClass.dot else RClass.lit c) :: ·) := by
  rw [parseBody.eq_def]
  simp only [if_neg hbs, if_neg hbr, if_neg hm]

/-- The parser recovers exactly the intended atoms from the generated
body of any safe pattern. -/
theorem parseBody_flat (p : List Char) (hp : safePat p) :
    parseBody (flatRepl p) = some (atomsOf p) := by
  induction p with
  | nil => rfl
  | cons c p ih =>
    have hp2 := safePat_tail hp
    have ih2 := ih hp2
    show parseBody (replChar c ++ flatRepl p) = some (atomsOf (c :: p))
    by_cases h1 : c = '.'
    · subst h1
      simp [replChar, parseBody, ih2, atomsOf]
    · by_cases h2 : c = '*'
      · subst h2
        simp [replChar, parseBody, ih2, atomsOf, reMeta]
      · by_cases h3 : c = '#'
        · subst h3
          simp [replChar, parseBody, ih2, atomsOf, reMeta]
        · have hm : c ∉ reMeta ∧ c ≠ '\n' := by
            rcases safePat_head hp with h | h
            · rcases h with h | h | h <;> simp_all
            · exact h
          have hbs : ¬c = '\\' := fun h => hm.1 (h ▸ (by decide : '\\' ∈ reMeta))
          have hbr : ¬c = '[' := fun h => hm.1 (h ▸ (by decide : '[' ∈ reMeta))
          rw [show replChar c ++ flatRepl p = c :: flatRepl p by
            simp [replChar, h1, h2, h3]]
          cases p with
          | nil =>
            rw [show flatRepl [] = [] from rfl, parseBody.eq_def]
            simp only [if_neg hbs, if_neg hbr, if_neg hm.1]
            simp [atomsOf, h1, h2, h3]
          | cons d p2 =>
            obtain ⟨x, l, hx, hxp⟩ := flatRepl_cons_shape d p2 hp2
            rw [hx, parseBody_cons_lit c x l hbs hbr hm.1 hxp, ← hx, ih2]
            simp [atomsOf, h1, h2, h3]

/-- `_topic_to_re` succeeds on every safe pattern and yields exactly the
expected atom sequence. -/
theorem topic_to_re_safe (p : List Char) (hp : safePat p) :
    topic_to_re p = some (atomsOf p) := by
  unfold topic_to_re topicToReStr parseRe
  rw [topicToReBody_eq_flat]
  simp [List.getLast?_concat, List.dropLast_concat, parseBody_flat p hp]

/-- On newline-free topics, the compiled matcher of a safe pattern agrees
with the specification-level matching rules. -/
theorem reMatch_atomsOf :
    ∀ (t : List Char), '\n' ∉ t → ∀ (p : List Char), safePat p →
      reMatch (atomsOf p) t = specMatch p t := by
  intro t
  induction t with
  | nil =>
    intro _ p _
    cases p with
    | nil => rfl
    | cons c p => simp [atomsOf, reMatch, specMatch]
  | cons x t ih =>
    intro hnl p hp
    have hx : x ≠ '\n' := fun h => hnl (h ▸ List.mem_cons_self x t)
    have hnl2 : '\n' ∉ t := fun h => hnl (List.mem_cons_of_mem x h)
    cases p with
    | nil =>
      simp [reMatch, specMatch, List.isEmpty, hx]
    | cons c p =>
      have hp2 := safePat_tail hp
      by_cases h2 : c = '*'
      · subst h2
        have ha : atomsOf ('*' :: p) = RAtom.plus RClass.nonDot :: atomsOf p := by
          simp [atomsOf]
        have e1 := ih hnl2 p hp2
        have e2 := ih hnl2 ('*' :: p) hp
        rw [ha] at e2 ⊢
        simp [reMatch, specMatch, classMatch, e1, e2]
      · by_cases h3 : c = '#'
        · subst h3
          have ha : atomsOf ('#' :: p) = RAtom.plus RClass.dot :: atomsOf p := by
            simp [atomsOf]
          have e1 := ih hnl2 p hp2
          have e2 := ih hnl2 ('#' :: p) hp
          rw [ha] at e2 ⊢
          simp [reMatch, specMatch, classMatch, e1, e2, bne_iff_ne, hx]
        · have ha : atomsOf (c :: p) = RAtom.once (RClass.lit c) :: atomsOf p := by
            simp [atomsOf, h2, h3]
          have e1 := ih hnl2 p hp2
          rw [ha]
          simp [reMatch, specMatch, classMatch, e1, h2, h3]

/-! ## The manager state and its operations -/

/-- A celery task handler.  Task equality in CPython is identity-based;
here a task is identified by its (stable) registered name. -/
structure Task where
  name : List Char
deriving DecidableEq, Repr

/-- A registry entry, the triple stored in `self.subscribed`:
`(topic, self._topic_to_re(topic), task)`. -/
abbrev Entry := List Char × Regex × Task

/-- Errors the operations can signal: `re.error` from `re.compile`
(the spec name: `PatternError`) and `ValueError` from tuple unpacking. -/
inductive PubSubError where
  | patternError
  | valueError
deriving DecidableEq, Repr

/-- The state of a `PubSubManager`: the subscription set `subscribed`
(modelled as a duplicate-free list, insertion order being irrelevant to
the claims proved here), the per-topic dispatch cache `jobs` (a Python
dict, modelled as an association list), and the `enabled` gate. -/
structure PubSubManager where
  subscribed : List Entry
  jobs : List (List Char × List Task)
  enabled : Bool
deriving DecidableEq, Repr

/-- `PubSubManager.__init__`: empty registry, empty cache, gate enabled. -/
def initManager : PubSubManager := ⟨[], [], true⟩

/-- Python dict lookup (`topic in self.jobs` / `self.jobs[topic]`). -/
def dictGet (d : List (List Char × List Task)) (k : List Char) : Option (List Task) :=
  match d with
  | [] => none
  | (k2, v) :: d2 => if k2 = k then some v else dictGet d2 k

/-- Python dict assignment `self.jobs[topic] = value`. -/
def dictSet (d : List (List Char × List Task)) (k : List Char) (v : List Task) :
    List (List Char × List Task) :=
  match d with
  | [] => [(k, v)]
  | (k2, v2) :: d2 => if k2 = k then (k, v) :: d2 else (k2, v2) :: dictSet d2 k v

/-- The loop body of `_gen_jobs`: collect `job[2].s()` for every
registry entry whose compiled pattern matches the topic, in order. -/
def genJobsList (subs : List Entry) (topic : List Char) : List Task :=
  match subs with
  | [] => []
  | (_, r, tk) :: rest =>
      if reMatch r topic then tk :: genJobsList rest topic else genJobsList rest topic

/-- `PubSubManager._gen_jobs`: store the matched group in the cache. -/
def gen_jobs (m : PubSubManager) (topic : List Char) : PubSubManager :=
  { m with jobs := dictSet m.jobs topic (genJobsList m.subscribed topic) }

/-- `PubSubManager.get_jobs`: rebuild the cache entry on a miss, then
return the cached group.  The final lookup never fails
(`dictGet_dictSet_self` below), modelled by `getD []`. -/
def get_jobs (m : PubSubManager) (topic : List Char) : PubSubManager × List Task :=
  let m2 := if dictGet m.jobs topic = none then gen_jobs m topic else m
  (m2, (dictGet m2.jobs topic).getD [])

/-- `PubSubManager.set_enabled`. -/
def set_enabled (m : PubSubManager) (enabled : Bool) : PubSubManager :=
  { m with enabled }

/-- `PubSubManager.publish`: when the gate is off, dispatch an empty
group without touching registry or cache; otherwise resolve through the
cache and dispatch the group asynchronously.  The returned list is the
ordered sequence of handlers in the dispatched group. -/
def publish (m : PubSubManager) (topic : List Char) : PubSubManager × List Task :=
  if !m.enabled then (m, [])
  else get_jobs m topic

/-- `PubSubManager.publish_now`: same resolution, synchronous dispatch. -/
def publish_now (m : PubSubManager) (topic : List Char) : PubSubManager × List Task :=
  if !m.enabled then (m, [])
  else get_jobs m topic

/-- `PubSubManager.subscribe`.  The pattern is compiled first, so a
compile failure surfaces here and leaves the state untouched; otherwise
the key is added unless already present, invalidating the whole cache. -/
def subscribe (m : PubSubManager) (topic : List Char) (task : Task) :
    PubSubManager × Option PubSubError :=
  match topic_to_re topic with
  | none => (m, some .patternError)
  | some r =>
    let key : Entry := (topic, r, task)
    if key ∈ m.subscribed then (m, none)
    else ({ m with subscribed := key :: m.subscribed, jobs := [] }, none)

/-- `PubSubManager.unsubscribe`.  The pattern is compiled first (so a
malformed pattern raises even when nothing is subscribed); a present key
is discarded and the cache cleared, an absent key is a silent no-op. -/
def unsubscribe (m : PubSubManager) (topic : List Char) (task : Task) :
    PubSubManager × Option PubSubError :=
  match topic_to_re topic with
  | none => (m, some .patternError)
  | some r =>
    let key : Entry := (topic, r, task)
    if key ∈ m.subscribed then
      ({ m with subscribed := m.subscribed.erase key, jobs := [] }, none)
    else (m, none)

/-- A plain callable passed to the `subscribe_to` decorator: its
`__module__` and `__qualname__`. -/
structure Callable where
  module : List Char
  qualname : List Char
deriving DecidableEq, Repr

/-- The argument of the decorator returned by `subscribe_to`: either an
object that already is a celery `Task`, or a plain callable. -/
inductive FuncOrTask where
  | task (t : Task)
  | func (f : Callable)
deriving DecidableEq, Repr

/-- Python `s.split(sep, 1)`: split at the first occurrence of `sep`;
one element when `sep` does not occur, two otherwise. -/
def pySplitOnce (s : List Char) (sep : Char) : List (List Char) :=
  match s with
  | [] => [[]]
  | c :: rest =>
    if c = sep then [[], rest]
    else
      match pySplitOnce rest sep with
      | [x] => [c :: x]
      | x :: xs => (c :: x) :: xs
      | [] => []

/-- The `subscribe_to(topic)` decorator applied to `f`: a `Task` is
subscribed as-is; a plain callable first gets a task name derived from
`func.__module__.split(".", 1)` and `func.__qualname__` — the tuple
unpacking raises `ValueError` when the module name has no dot, before
anything is registered or subscribed.  Returns the new state, the error
if any, and the task handed back to the caller. -/
def subscribe_to (m : PubSubManager) (topic : List Char) (f : FuncOrTask) :
    PubSubManager × Option PubSubError × Option Task :=
  match f with
  | .task t =>
    let r := subscribe m topic t
    (r.1, r.2, some t)
  | .func fn =>
    match pySplitOnce fn.module '.' with
    | [app_name, module_name] =>
      let task_name := app_name ++ ['.'] ++ module_name ++ ['.'] ++ fn.qualname
      let r := subscribe m topic ⟨task_name⟩
      (r.1, r.2, some ⟨task_name⟩)
    | _ => (m, some .valueError, none)

/-! ## Reachable states and invariants -/

/-- States reachable from the freshly constructed manager through the
public operations. -/
inductive Reachable : PubSubManager → Prop
  | init : Reachable initManager
  | subscribeStep (m : PubSubManager) (topic : List Char) (task : Task) :
      Reachable m → Reachable (subscribe m topic task).1
  | unsubscribeStep (m : PubSubManager) (topic : List Char) (task : Task) :
      Reachable m → Reachable (unsubscribe m topic task).1
  | publishStep (m : PubSubManager) (topic : List Char) :
      Reachable m → Reachable (publish m topic).1
  | publishNowStep (m : PubSubManager) (topic : List Char) :
      Reachable m → Reachable (publish_now m topic).1
  | setEnabledStep (m : PubSubManager) (b : Bool) :
      Reachable m → Reachable (set_enabled m b)
  | subscribeToStep (m : PubSubManager) (topic : List Char) (f : FuncOrTask) :
      Reachable m → Reachable (subscribe_to m topic f).1

/-- Every cache entry equals the resolution of its topic against the
current registry. -/
def cacheConsistent (m : PubSubManager) : Prop :=
  ∀ t g, dictGet m.jobs t = some g → g = genJobsList m.subscribed t

/-- Every registry entry stores the compilation of its own pattern. -/
def wellCompiled (m : PubSubManager) : Prop :=
  ∀ e ∈ m.subscribed, topic_to_re e.1 = some e.2.1

/-- The state invariant maintained by all operations. -/
def Inv (m : PubSubManager) : Prop :=
  cacheConsistent m ∧ m.subscribed.Nodup ∧ wellCompiled m

theorem dictGet_dictSet_self (d : List (List Char × List Task)) (k : List Char)
    (v : List Task) : dictGet (dictSet d k v) k = some v := by
  induction d with
  | nil => simp [dictGet, dictSet]
  | cons e d ih =>
    obtain ⟨k2, v2⟩ := e
    by_cases h : k2 = k
    · subst h; simp [dictGet, dictSet]
    · simp [dictGet, dictSet, h, ih]

theorem dictGet_dictSet_ne (d : List (List Char × List Task)) (k k2 : List Char)
    (v : List Task) (h : k ≠ k2) : dictGet (dictSet d k v) k2 = dictGet d k2 := by
  have h2 : k2 ≠ k := Ne.symm h
  induction d with
  | nil => simp [dictGet, dictSet, h]
  | cons e d ih =>
    obtain ⟨k3, v3⟩ := e
    by_cases h3 : k3 = k
    · subst h3; simp [dictGet, dictSet, h]
    · by_cases h4 : k3 = k2 <;> simp [dictGet, dictSet, h3, h4, ih, h2]

theorem genJobsList_cons (p : List Char) (r : Regex) (tk : Task) (subs : List Entry)
    (topic : List Char) :
    genJobsList ((p, r, tk) :: subs) topic =
      if reMatch r topic then tk :: genJobsList subs topic else genJobsList subs topic :=
  rfl

/-- Membership in the resolved group: exactly the handlers of matching
registry entries. -/
theorem mem_genJobsList (subs : List Entry) (topic : List Char) (tk : Task) :
    tk ∈ genJobsList subs topic ↔
      ∃ e ∈ subs, e.2.2 = tk ∧ reMatch e.2.1 topic = true := by
  induction subs with
  | nil =>
    constructor
    · intro hm; cases hm
    · rintro ⟨e, he, -, -⟩; cases he
  | cons e subs ih =>
    obtain ⟨p, r, tk2⟩ := e
    rw [genJobsList_cons]
    by_cases h : reMatch r topic = true
    · simp only [if_pos h]
      constructor
      · intro hm
        rcases List.mem_cons.1 hm with h2 | h2
        · exact ⟨(p, r, tk2), List.mem_cons_self _ _, h2.symm, h⟩
        · obtain ⟨e2, he2, h3, h4⟩ := ih.1 h2
          exact ⟨e2, List.mem_cons_of_mem _ he2, h3, h4⟩
      · rintro ⟨e2, he2, h3, h4⟩
        rcases List.mem_cons.1 he2 with h5 | h5
        · subst h5; exact h3 ▸ List.mem_cons_self _ _
        · exact List.mem_cons_of_mem _ (ih.2 ⟨e2, h5, h3, h4⟩)
    · simp only [if_neg h]
      rw [ih]
      constructor
      · rintro ⟨e2, he2, h3, h4⟩
        exact ⟨e2, List.mem_cons_of_mem _ he2, h3, h4⟩
      · rintro ⟨e2, he2, h3, h4⟩
        rcases List.mem_cons.1 he2 with h5 | h5
        · subst h5; exact absurd h4 h
        · exact ⟨e2, h5, h3, h4⟩

theorem inv_init : Inv initManager := by
  refine ⟨?_, ?_, ?_⟩
  · intro t g h; simp [dictGet, initManager] at h
  · simp [initManager]
  · intro e he; simp [initManager] at he

theorem inv_subscribe (m : PubSubManager) (topic : List Char) (task : Task)
    (h : Inv m) : Inv (subscribe m topic task).1 := by
  obtain ⟨hc, hn, hw⟩ := h
  unfold subscribe
  split
  · exact ⟨hc, hn, hw⟩
  · next r hr =>
    by_cases hk : ((topic, r, task) : Entry) ∈ m.subscribed
    · simpa [hk] using And.intro hc (And.intro hn hw)
    · simp only [if_neg hk]
      refine ⟨?_, ?_, ?_⟩
      · intro t g hg; simp [dictGet] at hg
      · exact List.Nodup.cons hk hn
      · intro e he
        rcases List.mem_cons.1 he with h2 | h2
        · subst h2; exact hr
        · exact hw e h2

theorem inv_unsubscribe (m : PubSubManager) (topic : List Char) (task : Task)
    (h : Inv m) : Inv (unsubscribe m topic task).1 := by
  obtain ⟨hc, hn, hw⟩ := h
  unfold unsubscribe
  split
  · exact ⟨hc, hn, hw⟩
  · next r hr =>
    by_cases hk : ((topic, r, task) : Entry) ∈ m.subscribed
    · simp only [if_pos hk]
      refine ⟨?_, ?_, ?_⟩
      · intro t g hg; simp [dictGet] at hg
      · exact hn.erase _
      · intro e he
        exact hw e (List.mem_of_mem_erase he)
    · simpa [hk] using And.intro hc (And.intro hn hw)

theorem inv_get_jobs (m : PubSubManager) (topic : List Char)
    (h : Inv m) : Inv (get_jobs m topic).1 := by
  obtain ⟨hc, hn, hw⟩ := h
  unfold get_jobs
  by_cases hmiss : dictGet m.jobs topic = none
  · simp only [if_pos hmiss]
    refine ⟨?_, hn, hw⟩
    intro t g hg
    by_cases ht : topic = t
    · subst ht
      rw [gen_jobs, dictGet_dictSet_self] at hg
      simpa [gen_jobs] using hg.symm
    · rw [gen_jobs] at hg
      rw [dictGet_dictSet_ne _ _ _ _ ht] at hg
      simpa [gen_jobs] using hc t g hg
  · simp only [if_neg hmiss]
    exact ⟨hc, hn, hw⟩

theorem inv_publish (m : PubSubManager) (topic : List Char)
    (h : Inv m) : Inv (publish m topic).1 := by
  unfold publish
  by_cases he : m.enabled
  · simpa [he] using inv_get_jobs m topic h
  · simpa [he] using h

theorem inv_publish_now (m : PubSubManager) (topic : List Char)
    (h : Inv m) : Inv (publish_now m topic).1 := by
  unfold publish_now
  by_cases he : m.enabled
  · simpa [he] using inv_get_jobs m topic h
  · simpa [he] using h

theorem inv_set_enabled (m : PubSubManager) (b : Bool)
    (h : Inv m) : Inv (set_enabled m b) := by
  obtain ⟨hc, hn, hw⟩ := h
  exact ⟨hc, hn, hw⟩

theorem inv_subscribe_to (m : PubSubManager) (topic : List Char) (f : FuncOrTask)
    (h : Inv m) : Inv (subscribe_to m topic f).1 := by
  cases f with
  | task t => exact inv_subscribe m topic t h
  | func fn =>
    simp only [subscribe_to]
    split
    · exact inv_subscribe m topic _ h
    · exact h

/-- Every reachable state satisfies the invariant. -/
theorem reachable_inv (m : PubSubManager) (h : Reachable m) : Inv m := by
  induction h with
  | init => exact inv_init
  | subscribeStep m topic task _ ih => exact inv_subscribe m topic task ih
  | unsubscribeStep m topic task _ ih => exact inv_unsubscribe m topic task ih
  | publishStep m topic _ ih => exact inv_publish m topic ih
  | publishNowStep m topic _ ih => exact inv_publish_now m topic ih
  | setEnabledStep m b _ ih => exact inv_set_enabled m b ih
  | subscribeToStep m topic f _ ih => exact inv_subscribe_to m topic f ih

/-! ## Characterisations of the operations -/

theorem subscribe_of_compiled (m : PubSubManager) (pat : List Char) (h : Task)
    (r : Regex) (hr : topic_to_re pat = some r) :
    subscribe m pat h =
      if ((pat, r, h) : Entry) ∈ m.subscribed then (m, none)
      else ({ m with subscribed := (pat, r, h) :: m.subscribed, jobs := [] }, none) := by
  unfold subscribe
  rw [hr]

theorem unsubscribe_of_compiled (m : PubSubManager) (pat : List Char) (h : Task)
    (r : Regex) (hr : topic_to_re pat = some r) :
    unsubscribe m pat h =
      if ((pat, r, h) : Entry) ∈ m.subscribed then
        ({ m with subscribed := m.subscribed.erase (pat, r, h), jobs := [] }, none)
      else (m, none) := by
  unfold unsubscribe
  rw [hr]

/-- Resolution through the cache always returns the resolution against
the current registry, provided the cache is consistent. -/
theorem get_jobs_snd (m : PubSubManager) (topic : List Char) (hc : cacheConsistent m) :
    (get_jobs m topic).2 = genJobsList m.subscribed topic := by
  unfold get_jobs
  by_cases hmiss : dictGet m.jobs topic = none
  · simp only [if_pos hmiss, gen_jobs, dictGet_dictSet_self]
    rfl
  · simp only [if_neg hmiss]
    obtain ⟨g, hg⟩ := Option.ne_none_iff_exists'.mp hmiss
    simp [hg, hc topic g hg]

/-- Python `s.split(sep, 1)` returns the one-element list `[s]` when the
separator does not occur in `s`. -/
theorem pySplitOnce_no_sep (s : List Char) (sep : Char) (h : sep ∉ s) :
    pySplitOnce s sep = [s] := by
  induction s with
  | nil => rfl
  | cons c s ih =>
    have hc : ¬c = sep := fun heq => h (heq ▸ List.mem_cons_self c s)
    have hs : sep ∉ s := fun heq => h (List.mem_cons_of_mem c heq)
    simp [pySplitOnce, hc, ih hs]

/-- A list without duplicates holding an element `a` that is the only
element satisfying `p` has exactly one element satisfying `p`. -/
theorem countP_eq_one_of_unique {α : Type} (l : List α) (p : α → Bool) (a : α)
    (hnd : l.Nodup) (ha : a ∈ l) (hpa : p a = true)
    (huniq : ∀ b ∈ l, p b = true → b = a) : l.countP p = 1 := by
  induction l with
  | nil => cases ha
  | cons x l ih =>
    rw [List.countP_cons]
    rcases List.mem_cons.1 ha with rfl | hal
    · have h0 : l.countP p = 0 := by
        rw [List.countP_eq_zero]
        intro b hb hpb
        have hba := huniq b (List.mem_cons_of_mem _ hb) hpb
        subst hba
        exact (List.nodup_cons.1 hnd).1 hb
      simp [h0, hpa]
    · have hx : ¬p x = true := by
        intro hpx
        have hxa := huniq x (List.mem_cons_self _ _) hpx
        subst hxa
        exact (List.nodup_cons.1 hnd).1 hal
      rw [ih (List.nodup_cons.1 hnd).2 hal
        (fun b hb hpb => huniq b (List.mem_cons_of_mem _ hb) hpb)]
      simp [hx]

/-! ## Claims -/

/-- C1, counterexample: the claim states that every character other than
the wildcards matches itself literally, but `_topic_to_re` does not
escape regex metacharacters, so the pattern `a+` compiles to the regex
`^a+$` in which `+` is a quantifier: the topic `aa` is accepted by the
compiled matcher although the claimed rules reject it. -/
theorem C1_counterexample :
    topic_to_re ['a', '+'] = some [RAtom.plus (RClass.lit 'a')] ∧
    reMatch [RAtom.plus (RClass.lit 'a')] ['a', 'a'] = true ∧
    specMatch ['a', '+'] ['a', 'a'] = false :=
  ⟨by decide, by decide, by decide⟩

/-- C1, amended: for every pattern whose characters are the wildcards
`.`, `*`, `#` or literals that are neither regex metacharacters
(`\ [ ] ( ) { } + ? * ^ $ |`) nor newline, compilation succeeds and the
compiled matcher accepts a newline-free topic exactly when the topic
matches the pattern under the claimed rules: `.` a literal separator,
`*` exactly one non-empty separator-free segment, `#` one or more
characters possibly spanning separators, other characters themselves,
anchored to the whole topic. -/
theorem C1_matcher_amended (p t : List Char) (hp : safePat p) (ht : '\n' ∉ t) :
    topic_to_re p = some (atomsOf p) ∧ reMatch (atomsOf p) t = specMatch p t :=
  ⟨topic_to_re_safe p hp, reMatch_atomsOf t ht p hp⟩

theorem C1_matcher_amended_witness :
    topic_to_re ['a', '.', '*', '.', 'c'] = some (atomsOf ['a', '.', '*', '.', 'c']) ∧
    reMatch (atomsOf ['a', '.', '*', '.', 'c']) ['a', '.', 'b', '.', 'c'] =
      specMatch ['a', '.', '*', '.', 'c'] ['a', '.', 'b', '.', 'c'] :=
  C1_matcher_amended ['a', '.', '*', '.', 'c'] ['a', '.', 'b', '.', 'c']
    (by decide) (by decide)

/-- C4: with the gate disabled, `publish` and `publish_now` return an
empty dispatch and leave the state (registry and cache) untouched, for
every state whatsoever — in particular the result does not depend on the
registry or the cache and no handler is resolved; the gate defaults to
enabled at construction; and re-enabling restores exactly the prior
state, so publishing behaves as before without re-subscription. -/
theorem C4_enable_gate (m : PubSubManager) (topic : List Char) :
    (m.enabled = false → publish m topic = (m, []) ∧ publish_now m topic = (m, [])) ∧
    initManager.enabled = true ∧
    set_enabled (set_enabled m false) true = { m with enabled := true } ∧
    (m.enabled = true →
      publish (set_enabled (set_enabled m false) true) topic = publish m topic) := by
  refine ⟨?_, rfl, rfl, ?_⟩
  · intro he
    exact ⟨by simp [publish, he], by simp [publish_now, he]⟩
  · intro he
    have hsame : set_enabled (set_enabled m false) true = m := by
      obtain ⟨s, j, e⟩ := m
      simp only [set_enabled]
      simp_all
    rw [hsame]

theorem C4_enable_gate_witness :
    (initManager.enabled = false →
      publish initManager ['a'] = (initManager, []) ∧
      publish_now initManager ['a'] = (initManager, [])) ∧
    initManager.enabled = true ∧
    set_enabled (set_enabled initManager false) true =
      { initManager with enabled := true } ∧
    (initManager.enabled = true →
      publish (set_enabled (set_enabled initManager false) true) ['a'] =
        publish initManager ['a']) :=
  C4_enable_gate initManager ['a']

/-- C6: when the translated pattern cannot be compiled, `subscribe`
signals the pattern error immediately and returns the state unchanged —
the subscription is not added, and since the whole state is returned
unmodified nothing is deferred to publish time. -/
theorem C6_pattern_error_at_subscribe (m : PubSubManager) (pat : List Char) (h : Task)
    (hr : topic_to_re pat = none) :
    subscribe m pat h = (m, some PubSubError.patternError) := by
  unfold subscribe
  rw [hr]

theorem C6_pattern_error_at_subscribe_witness :
    subscribe initManager ['('] (Task.mk ['h']) =
      (initManager, some PubSubError.patternError) :=
  C6_pattern_error_at_subscribe initManager ['('] (Task.mk ['h']) (by decide)

/-- C9: no-op mutations have no effect at all: a `subscribe` whose key is
already registered and an `unsubscribe` whose key is absent return the
state unchanged without invalidating the cache, and a `get_jobs` on a
cached topic is served from the existing cache entry without touching
the state. -/
theorem C9_noop_mutations_keep_cache (m : PubSubManager) (pat : List Char) (h : Task)
    (r : Regex) (hr : topic_to_re pat = some r) (t : List Char) (g : List Task) :
    (((pat, r, h) : Entry) ∈ m.subscribed → subscribe m pat h = (m, none)) ∧
    (((pat, r, h) : Entry) ∉ m.subscribed → unsubscribe m pat h = (m, none)) ∧
    (dictGet m.jobs t = some g → get_jobs m t = (m, g)) := by
  refine ⟨?_, ?_, ?_⟩
  · intro hk
    rw [subscribe_of_compiled m pat h r hr, if_pos hk]
  · intro hk
    rw [unsubscribe_of_compiled m pat h r hr, if_neg hk]
  · intro hg
    unfold get_jobs
    have hne : ¬dictGet m.jobs t = none := by simp [hg]
    simp [if_neg hne, hg]

theorem C9_noop_mutations_keep_cache_witness :
    ((((['a'], [RAtom.once (RClass.lit 'a')], Task.mk ['h']) : Entry) ∈
        initManager.subscribed →
      subscribe initManager ['a'] (Task.mk ['h']) = (initManager, none)) ∧
    ((((['a'], [RAtom.once (RClass.lit 'a')], Task.mk ['h']) : Entry) ∉
        initManager.subscribed →
      unsubscribe initManager ['a'] (Task.mk ['h']) = (initManager, none)) ∧
    (dictGet initManager.jobs ['t'] = some [] →
      get_jobs initManager ['t'] = (initManager, [])))) :=
  C9_noop_mutations_keep_cache initManager ['a'] (Task.mk ['h'])
    [RAtom.once (RClass.lit 'a')] (by decide) ['t'] []

/-- C10: the `subscribe_to` decorator is partial on plain callables:
when the module name of the callable contains no dot, the tuple unpacking of
`func.__module__.split(".", 1)` fails with `ValueError` before any task
is registered or any subscription is added (the state is returned
unchanged and no task is produced), while an argument that already is a
`Task` is subscribed as-is and returned unchanged. -/
theorem C10_subscribe_to_partial (m : PubSubManager) (topic : List Char)
    (fn : Callable) (t : Task) (hnd : '.' ∉ fn.module) :
    subscribe_to m topic (.func fn) = (m, some PubSubError.valueError, none) ∧
    subscribe_to m topic (.task t) =
      ((subscribe m topic t).1, (subscribe m topic t).2, some t) := by
  constructor
  · simp only [subscribe_to, pySplitOnce_no_sep fn.module '.' hnd]
  · rfl

theorem C10_subscribe_to_partial_witness :
    subscribe_to initManager ['x'] (.func ⟨['m', 'o', 'd'], ['f']⟩) =
      (initManager, some PubSubError.valueError, none) ∧
    subscribe_to initManager ['x'] (.task (Task.mk ['q'])) =
      ((subscribe initManager ['x'] (Task.mk ['q'])).1,
        (subscribe initManager ['x'] (Task.mk ['q'])).2, some (Task.mk ['q'])) :=
  C10_subscribe_to_partial initManager ['x'] ⟨['m', 'o', 'd'], ['f']⟩ (Task.mk ['q'])
    (by decide)

/-- C2: in every reachable state, every cache entry equals the
resolution of its topic against the current registry; any `subscribe` or
`unsubscribe` that changes the subscription set clears the whole cache;
and an enabled `publish` always dispatches exactly the resolution of the
topic against the current registry — never a pre-mutation set. -/
theorem C2_cache_reflects_registry (m : PubSubManager) (hm : Reachable m)
    (topic pat : List Char) (task : Task) :
    (∀ t g, dictGet m.jobs t = some g → g = genJobsList m.subscribed t) ∧
    ((subscribe m pat task).1.subscribed ≠ m.subscribed →
      (subscribe m pat task).1.jobs = []) ∧
    ((unsubscribe m pat task).1.subscribed ≠ m.subscribed →
      (unsubscribe m pat task).1.jobs = []) ∧
    (m.enabled = true → (publish m topic).2 = genJobsList m.subscribed topic) := by
  obtain ⟨hc, hn, hw⟩ := reachable_inv m hm
  refine ⟨hc, ?_, ?_, ?_⟩
  · rcases hcomp : topic_to_re pat with _ | r
    · rw [show subscribe m pat task = (m, some PubSubError.patternError) by
        unfold subscribe; rw [hcomp]]
      intro hne; exact absurd rfl hne
    · rw [subscribe_of_compiled m pat task r hcomp]
      by_cases hk : ((pat, r, task) : Entry) ∈ m.subscribed
      · rw [if_pos hk]; intro hne; exact absurd rfl hne
      · rw [if_neg hk]; intro _; rfl
  · rcases hcomp : topic_to_re pat with _ | r
    · rw [show unsubscribe m pat task = (m, some PubSubError.patternError) by
        unfold unsubscribe; rw [hcomp]]
      intro hne; exact absurd rfl hne
    · rw [unsubscribe_of_compiled m pat task r hcomp]
      by_cases hk : ((pat, r, task) : Entry) ∈ m.subscribed
      · rw [if_pos hk]; intro _; rfl
      · rw [if_neg hk]; intro hne; exact absurd rfl hne
  · intro he
    rw [show publish m topic = get_jobs m topic by simp [publish, he]]
    exact get_jobs_snd m topic hc

theorem C2_cache_reflects_registry_witness :
    (∀ t g, dictGet initManager.jobs t = some g →
      g = genJobsList initManager.subscribed t) ∧
    ((subscribe initManager ['a'] (Task.mk ['h'])).1.subscribed ≠
        initManager.subscribed →
      (subscribe initManager ['a'] (Task.mk ['h'])).1.jobs = []) ∧
    ((unsubscribe initManager ['a'] (Task.mk ['h'])).1.subscribed ≠
        initManager.subscribed →
      (unsubscribe initManager ['a'] (Task.mk ['h'])).1.jobs = []) ∧
    (initManager.enabled = true →
      (publish initManager ['t']).2 = genJobsList initManager.subscribed ['t']) :=
  C2_cache_reflects_registry initManager Reachable.init ['t'] ['a'] (Task.mk ['h'])

/-- C3: subscription uniqueness is keyed on (pattern, handler): a second
`subscribe` with the same pattern and handler is a no-op (the state is
unchanged, pattern recompilation notwithstanding since compilation is
deterministic), the key occurs exactly once in the registry, no two
entries of a reachable post-subscribe state share (pattern, handler),
and a publish-time resolution of a matching topic dispatches the handler
exactly once when it has no other subscription. -/
theorem C3_subscribe_unique (m : PubSubManager) (hm : Reachable m)
    (pat : List Char) (h : Task) (r : Regex) (hr : topic_to_re pat = some r) :
    (subscribe (subscribe m pat h).1 pat h).1 = (subscribe m pat h).1 ∧
    (subscribe m pat h).1.subscribed.countP
      (fun e => decide (e.1 = pat ∧ e.2.2 = h)) = 1 ∧
    (∀ e1 ∈ (subscribe m pat h).1.subscribed, ∀ e2 ∈ (subscribe m pat h).1.subscribed,
      e1.1 = e2.1 → e1.2.2 = e2.2.2 → e1 = e2) ∧
    (∀ t, (∀ e ∈ m.subscribed, e.2.2 ≠ h) → reMatch r t = true →
      List.count h (genJobsList (subscribe m pat h).1.subscribed t) = 1) := by
  have hs1 : Reachable (subscribe m pat h).1 := Reachable.subscribeStep m pat h hm
  obtain ⟨hc1, hn1, hw1⟩ := reachable_inv _ hs1
  have hkey : ((pat, r, h) : Entry) ∈ (subscribe m pat h).1.subscribed := by
    rw [subscribe_of_compiled m pat h r hr]
    by_cases hk : ((pat, r, h) : Entry) ∈ m.subscribed
    · rw [if_pos hk]; exact hk
    · rw [if_neg hk]; exact List.mem_cons_self _ _
  refine ⟨?_, ?_, ?_, ?_⟩
  · rw [subscribe_of_compiled _ pat h r hr, if_pos hkey]
  · apply countP_eq_one_of_unique _ _ ((pat, r, h) : Entry) hn1 hkey
    · simp
    · rintro ⟨p1, r1, t1⟩ hb hpb
      simp only [decide_eq_true_eq] at hpb
      obtain ⟨rfl, rfl⟩ := hpb
      have c1 := hw1 _ hb
      simp only at c1
      rw [hr] at c1
      obtain rfl := Option.some.inj c1
      rfl
  · rintro ⟨p1, r1, t1⟩ he1 ⟨p2, r2, t2⟩ he2 hp ht
    simp only at hp ht
    subst hp; subst ht
    have c1 := hw1 _ he1
    have c2 := hw1 _ he2
    simp only at c1 c2
    rw [c1] at c2
    obtain rfl := Option.some.inj c2
    rfl
  · intro t hno hmatch
    have hknot : ((pat, r, h) : Entry) ∉ m.subscribed := fun hk => hno _ hk rfl
    rw [subscribe_of_compiled m pat h r hr, if_neg hknot]
    show List.count h (genJobsList (((pat, r, h) : Entry) :: m.subscribed) t) = 1
    rw [genJobsList_cons, if_pos hmatch]
    have hnot : h ∉ genJobsList m.subscribed t := by
      intro hmem
      obtain ⟨e, he, heq, -⟩ := (mem_genJobsList _ _ _).1 hmem
      exact hno e he heq
    rw [List.count_cons_self, List.count_eq_zero.2 hnot]

theorem C3_subscribe_unique_witness :
    (subscribe (subscribe initManager ['a'] (Task.mk ['h'])).1 ['a']
        (Task.mk ['h'])).1 = (subscribe initManager ['a'] (Task.mk ['h'])).1 ∧
    (subscribe initManager ['a'] (Task.mk ['h'])).1.subscribed.countP
      (fun e => decide (e.1 = ['a'] ∧ e.2.2 = Task.mk ['h'])) = 1 ∧
    (∀ e1 ∈ (subscribe initManager ['a'] (Task.mk ['h'])).1.subscribed,
      ∀ e2 ∈ (subscribe initManager ['a'] (Task.mk ['h'])).1.subscribed,
      e1.1 = e2.1 → e1.2.2 = e2.2.2 → e1 = e2) ∧
    (∀ t, (∀ e ∈ initManager.subscribed, e.2.2 ≠ Task.mk ['h']) →
      reMatch [RAtom.once (RClass.lit 'a')] t = true →
      List.count (Task.mk ['h'])
        (genJobsList (subscribe initManager ['a'] (Task.mk ['h'])).1.subscribed t) = 1) :=
  C3_subscribe_unique initManager Reachable.init ['a'] (Task.mk ['h'])
    [RAtom.once (RClass.lit 'a')] (by decide)

/-- C5, counterexample: the claim says `unsubscribe` never raises when no
matching entry exists, but the code compiles the pattern before the
membership test, so `unsubscribe("(", h)` on the fresh manager — whose
registry holds no entry at all — raises the pattern compilation error
instead of being a silent no-op. -/
theorem C5_counterexample :
    (∀ e ∈ initManager.subscribed, ¬(e.1 = ['('] ∧ e.2.2 = Task.mk ['h'])) ∧
    (unsubscribe initManager ['('] (Task.mk ['h'])).2 =
      some PubSubError.patternError := by
  constructor
  · intro e he; cases he
  · decide

/-- C5, amended: for every pattern that compiles, `unsubscribe` never
signals an error; it removes the (pattern, handler) entry when present —
after which a topic dispatches to a handler only through the remaining
entries whose pattern matches it — and is a silent no-op (state returned
unchanged) when the entry is absent.  A pattern that fails to compile
makes `unsubscribe` raise the compilation error even when no entry is
present. -/
theorem C5_unsubscribe_amended (m : PubSubManager) (hm : Reachable m)
    (pat : List Char) (h : Task) (r : Regex) (hr : topic_to_re pat = some r) :
    (unsubscribe m pat h).2 = none ∧
    ((pat, r, h) : Entry) ∉ (unsubscribe m pat h).1.subscribed ∧
    (((pat, r, h) : Entry) ∉ m.subscribed → (unsubscribe m pat h).1 = m) ∧
    (∀ t tk, tk ∈ genJobsList (unsubscribe m pat h).1.subscribed t ↔
      ∃ e ∈ (unsubscribe m pat h).1.subscribed, e.2.2 = tk ∧
        reMatch e.2.1 t = true) := by
  obtain ⟨hc, hn, hw⟩ := reachable_inv m hm
  rw [unsubscribe_of_compiled m pat h r hr]
  by_cases hk : ((pat, r, h) : Entry) ∈ m.subscribed
  · rw [if_pos hk]
    refine ⟨rfl, ?_, ?_, ?_⟩
    · show ((pat, r, h) : Entry) ∉ m.subscribed.erase (pat, r, h)
      intro hmem
      exact (hn.mem_erase_iff.mp hmem).1 rfl
    · intro habs; exact absurd hk habs
    · intro t tk; exact mem_genJobsList _ _ _
  · rw [if_neg hk]
    exact ⟨rfl, hk, fun _ => rfl, fun t tk => mem_genJobsList _ _ _⟩

theorem C5_unsubscribe_amended_witness :
    (unsubscribe initManager ['a'] (Task.mk ['h'])).2 = none ∧
    ((['a'], [RAtom.once (RClass.lit 'a')], Task.mk ['h']) : Entry) ∉
      (unsubscribe initManager ['a'] (Task.mk ['h'])).1.subscribed ∧
    (((['a'], [RAtom.once (RClass.lit 'a')], Task.mk ['h']) : Entry) ∉
        initManager.subscribed →
      (unsubscribe initManager ['a'] (Task.mk ['h'])).1 = initManager) ∧
    (∀ t tk, tk ∈ genJobsList
        (unsubscribe initManager ['a'] (Task.mk ['h'])).1.subscribed t ↔
      ∃ e ∈ (unsubscribe initManager ['a'] (Task.mk ['h'])).1.subscribed,
        e.2.2 = tk ∧ reMatch e.2.1 t = true) :=
  C5_unsubscribe_amended initManager Reachable.init ['a'] (Task.mk ['h'])
    [RAtom.once (RClass.lit 'a')] (by decide)

end CeleryPubsub
